import Mathlib

/-!
Shallow embedding of the gin-short-url repository's core.

* `utils/base62.go` — `EncodeBase62`, `DecodeBase62`, `IsValidBase62`;
* `storage/memory.go` (src/unnamed/part_005) — `MemoryStorage` with its three
  indices and `nextID` counter, and the operations `Save`, `GetByShortCode`,
  `GetByID`, `IncrementAccessCount`, `GetStats`;
* the service layer (`docs/07-service-layer.md`) — `GetOriginalURL`,
  `GetURLInfo`, `wrapStorageError`.

Go strings are modelled as `List Char`; Go's `uint64` is modelled as `Nat`
with explicit reduction modulo `U64 = 2 ^ 64` at every operation where the
Go code can overflow.  `time.Time` is modelled as an abstract `Nat`
timestamp supplied by the caller.
-/

namespace GinShortURL

/-- `2 ^ 64`, the modulus of Go `uint64` arithmetic. -/
def U64 : Nat := 18446744073709551616

/-- The Base62 character set constant of `utils/base62.go`, modelled as the
list of the Go string constant's characters. -/
def base62Chars : List Char :=
  "0123456789abcdefghijklmnopqrstuvwxyzABCDEFGHIJKLMNOPQRSTUVWXYZ".toList

/-- The constant `base = 62` of `utils/base62.go`. -/
abbrev base : Nat := 62

/-- The digit-collection loop of `EncodeBase62`: writes `base62Chars[num%base]`
and divides by `base` until `num` reaches zero.  Produces the digits
least-significant first, exactly as the Go loop writes them. -/
def encodeLoop (num : Nat) : List Char :=
  if h : num = 0 then []
  else base62Chars.getD (num % base) '0' :: encodeLoop (num / base)
termination_by num
decreasing_by exact Nat.div_lt_self (Nat.pos_of_ne_zero h) (by decide)

/-- `EncodeBase62` from `utils/base62.go`: `"0"` for zero, otherwise the
collected digits reversed (the Go code builds the string LSB-first and then
reverses it). -/
def EncodeBase62 (num : Nat) : List Char :=
  if num = 0 then ['0'] else (encodeLoop num).reverse

/-- The `switch` in `DecodeBase62` assigning `value` from a character;
`none` models the `default` branch, which aborts the whole decode. -/
def base62Value (char : Char) : Option Nat :=
  if '0' ≤ char ∧ char ≤ '9' then some (char.toNat - '0'.toNat)
  else if 'a' ≤ char ∧ char ≤ 'z' then some (char.toNat - 'a'.toNat + 10)
  else if 'A' ≤ char ∧ char ≤ 'Z' then some (char.toNat - 'A'.toNat + 36)
  else none

/-- The right-to-left loop of `DecodeBase62`, taking the characters
least-significant first together with the running `power` and `result`
(uint64 variables, hence the reductions mod `U64`).  An unrecognized
character makes the whole function return `0` (Go's `return 0` in the
`default` case). -/
def decodeAux : List Char → Nat → Nat → Nat
  | [], _, result => result
  | char :: rest, power, result =>
    match base62Value char with
    | some value => decodeAux rest (power * base % U64) ((result + value * power) % U64)
    | none => 0

/-- `DecodeBase62` from `utils/base62.go`: processes the characters from the
rightmost to the leftmost with `power` starting at 1 and `result` at 0. -/
def DecodeBase62 (encoded : List Char) : Nat :=
  decodeAux encoded.reverse 1 0

/-- `IsValidBase62` from `utils/base62.go`: false on the empty string,
otherwise true iff every character is a digit, a lowercase letter or an
uppercase letter. -/
def IsValidBase62 (s : List Char) : Bool :=
  if s.length = 0 then false
  else s.all fun char =>
    decide (('0' ≤ char ∧ char ≤ '9') ∨ ('a' ≤ char ∧ char ≤ 'z') ∨
      ('A' ≤ char ∧ char ≤ 'Z'))

/-! ## Storage layer (`storage/memory.go`)

Go's `map` type is modelled as an association list without duplicate keys:
`mapGet` is a map read, `mapPut` is `m[k] = v` (overwriting any previous
binding), `mapErase` is the removal of all bindings of a key, used by
`mapPut` to keep keys unique so that `List.length` matches Go's `len`. -/

/-- Read `m[k]` of a Go map: the value of the first binding of the key. -/
def mapGet {α β : Type} [DecidableEq α] : List (α × β) → α → Option β
  | [], _ => none
  | (k, v) :: rest, key => if key = k then some v else mapGet rest key

/-- Remove every binding of a key. -/
def mapErase {α β : Type} [DecidableEq α] : List (α × β) → α → List (α × β)
  | [], _ => []
  | (k, v) :: rest, key =>
    if key = k then mapErase rest key else (k, v) :: mapErase rest key

/-- Write `m[k] = v` of a Go map: overwrites any existing binding. -/
def mapPut {α β : Type} [DecidableEq α] (m : List (α × β)) (key : α) (val : β) :
    List (α × β) :=
  (key, val) :: mapErase m key

/-- The keys of a map. -/
def mapKeys {α β : Type} (m : List (α × β)) : List α := m.map Prod.fst

/-- `models.URL` (`models/url.go`): one stored record.  `CreatedAt` is the
`time.Time` stamp, modelled as an abstract `Nat`. -/
structure URL where
  ID : Nat
  OriginalURL : List Char
  ShortCode : List Char
  CreatedAt : Nat
  AccessCount : Nat
deriving DecidableEq, Repr

/-- The two error sentinels declared in `storage/memory.go`:
`ErrURLNotFound` and `ErrURLExists`. -/
inductive StorageErr where
  | ErrURLNotFound
  | ErrURLExists
deriving DecidableEq, Repr

/-- `storage.MemoryStorage`: three indices over the records plus the id
counter.  The Go maps hold pointers to shared `models.URL` objects; here each
index holds the record value itself (see `IncrementAccessCount` for how the
sharing is rendered). -/
structure MemoryStorage where
  urls : List (List Char × URL)
  urlsByID : List (Nat × URL)
  urlsByOrig : List (List Char × URL)
  nextID : Nat
deriving DecidableEq, Repr

/-- `NewMemoryStorage`: empty maps, `nextID = 1`. -/
def NewMemoryStorage : MemoryStorage :=
  { urls := [], urlsByID := [], urlsByOrig := [], nextID := 1 }

/-- `MemoryStorage.Save`: return the existing record if the original URL is
already indexed; otherwise build a record with the next id and its Base62
code, insert it into all three indices and advance the counter.  The Go
function also returns an `error`, always `nil` (`none`). -/
def MemoryStorage.Save (s : MemoryStorage) (now : Nat) (originalURL : List Char) :
    (URL × Option StorageErr) × MemoryStorage :=
  match mapGet s.urlsByOrig originalURL with
  | some existingURL => ((existingURL, none), s)
  | none =>
    let url : URL :=
      { ID := s.nextID, OriginalURL := originalURL,
        ShortCode := EncodeBase62 s.nextID, CreatedAt := now, AccessCount := 0 }
    ((url, none),
      { urls := mapPut s.urls url.ShortCode url,
        urlsByID := mapPut s.urlsByID url.ID url,
        urlsByOrig := mapPut s.urlsByOrig originalURL url,
        nextID := (s.nextID + 1) % U64 })

/-- `MemoryStorage.GetByShortCode`: lookup through the by-code index. -/
def MemoryStorage.GetByShortCode (s : MemoryStorage) (shortCode : List Char) :
    Except StorageErr URL :=
  match mapGet s.urls shortCode with
  | none => .error .ErrURLNotFound
  | some url => .ok url

/-- `MemoryStorage.GetByID`: lookup through the by-id index. -/
def MemoryStorage.GetByID (s : MemoryStorage) (id : Nat) : Except StorageErr URL :=
  match mapGet s.urlsByID id with
  | none => .error .ErrURLNotFound
  | some url => .ok url

/-- `MemoryStorage.IncrementAccessCount`: `url.AccessCount++` on the record
found through the by-code index.  In Go the three maps alias one shared
`*models.URL`, so the single pointer write is visible through every index;
in this value-based embedding the updated record is therefore written back
under each index's key. -/
def MemoryStorage.IncrementAccessCount (s : MemoryStorage) (shortCode : List Char) :
    Option StorageErr × MemoryStorage :=
  match mapGet s.urls shortCode with
  | none => (some .ErrURLNotFound, s)
  | some url =>
    let url' : URL := { url with AccessCount := (url.AccessCount + 1) % U64 }
    (none,
      { s with
        urls := mapPut s.urls shortCode url',
        urlsByID := mapPut s.urlsByID url.ID url',
        urlsByOrig := mapPut s.urlsByOrig url.OriginalURL url' })

/-- `MemoryStorage.GetStats`: the stats map, modelled as the list of its two
numeric fields `total_urls` and `next_id` — the Go function returns exactly
these two entries. -/
def MemoryStorage.GetStats (s : MemoryStorage) : List (String × Nat) :=
  [("total_urls", s.urls.length), ("next_id", s.nextID)]

/-- One call against the store; reads keep the state, `Save` and
`IncrementAccessCount` may change it. -/
inductive Op where
  | save (now : Nat) (originalURL : List Char)
  | getByShortCode (shortCode : List Char)
  | getByID (id : Nat)
  | incrementAccessCount (shortCode : List Char)
  | getStats
deriving DecidableEq, Repr

/-- The state reached after one operation. -/
def applyOp (s : MemoryStorage) : Op → MemoryStorage
  | .save now u => (s.Save now u).2
  | .getByShortCode _ => s
  | .getByID _ => s
  | .incrementAccessCount c => (s.IncrementAccessCount c).2
  | .getStats => s

/-- The state reached after a sequence of operations. -/
def runOps (s : MemoryStorage) (ops : List Op) : MemoryStorage :=
  ops.foldl applyOp s

/-- `K` sequential `IncrementAccessCount` calls on the same code. -/
def iterIncrement (s : MemoryStorage) (code : List Char) : Nat → MemoryStorage
  | 0 => s
  | k + 1 => ((iterIncrement s code k).IncrementAccessCount code).2

/-! ## Service layer (`services/url_service.go`, as given in
`docs/07-service-layer.md`) -/

/-- The service-level error sentinels declared in `services/url_service.go`;
`wrapped` carries a storage error passed through unchanged by the `default`
branch of `wrapStorageError`. -/
inductive ServiceError where
  | ErrInvalidURL
  | ErrURLNotFound
  | ErrInvalidShortCode
  | wrapped (e : StorageErr)
deriving DecidableEq, Repr

/-- `wrapStorageError`: maps `storage.ErrURLNotFound` to the service-level
`ErrURLNotFound` and passes any other error through. -/
def wrapStorageError : StorageErr → ServiceError
  | .ErrURLNotFound => .ErrURLNotFound
  | e => .wrapped e

/-- The part of `config.Config` the service layer reads. -/
structure Config where
  BaseURL : List Char

/-- `strings.TrimRight(baseURL, "/")`. -/
def trimRightSlash (l : List Char) : List Char :=
  (l.reverse.dropWhile fun c => c = '/').reverse

/-- `buildShortURL`: the trimmed base URL, a slash, and the code. -/
def buildShortURL (cfg : Config) (shortCode : List Char) : List Char :=
  trimRightSlash cfg.BaseURL ++ '/' :: shortCode

/-- `models.URLInfoResponse`. -/
structure URLInfoResponse where
  ID : Nat
  OriginalURL : List Char
  ShortCode : List Char
  ShortURL : List Char
  CreatedAt : Nat
  AccessCount : Nat
deriving DecidableEq, Repr

/-- `URLService.GetOriginalURL`: rejects codes failing `IsValidBase62` with
`ErrInvalidShortCode`, wraps storage lookup errors, and on success returns
the original URL; the access-count increment that Go runs in a goroutine is
rendered sequentially in the returned state. -/
def URLService.GetOriginalURL (s : MemoryStorage) (shortCode : List Char) :
    Except ServiceError (List Char) × MemoryStorage :=
  if IsValidBase62 shortCode then
    match s.GetByShortCode shortCode with
    | .error e => (.error (wrapStorageError e), s)
    | .ok urlRecord =>
      (.ok urlRecord.OriginalURL, (s.IncrementAccessCount shortCode).2)
  else (.error .ErrInvalidShortCode, s)

/-- `URLService.GetURLInfo`: same validation and lookup, building the
response record; no state change. -/
def URLService.GetURLInfo (cfg : Config) (s : MemoryStorage) (shortCode : List Char) :
    Except ServiceError URLInfoResponse :=
  if IsValidBase62 shortCode then
    match s.GetByShortCode shortCode with
    | .error e => .error (wrapStorageError e)
    | .ok u =>
      .ok { ID := u.ID, OriginalURL := u.OriginalURL, ShortCode := u.ShortCode,
            ShortURL := buildShortURL cfg u.ShortCode, CreatedAt := u.CreatedAt,
            AccessCount := u.AccessCount }
  else .error .ErrInvalidShortCode

/-! ## The registry invariant

`Inv` collects the coherence properties of a reachable `MemoryStorage`: the
three indices describe the same record set, codes are the Base62 encodings of
the ids, the assigned ids are exactly `1 .. nextID - 1`, and `nextID` is the
record count plus one. -/

structure Inv (s : MemoryStorage) : Prop where
  urls_sound : ∀ c u, mapGet s.urls c = some u →
    u.ShortCode = c ∧ mapGet s.urlsByID u.ID = some u ∧
      mapGet s.urlsByOrig u.OriginalURL = some u
  byID_sound : ∀ i u, mapGet s.urlsByID i = some u →
    u.ID = i ∧ mapGet s.urls u.ShortCode = some u ∧
      mapGet s.urlsByOrig u.OriginalURL = some u
  byOrig_sound : ∀ o u, mapGet s.urlsByOrig o = some u →
    u.OriginalURL = o ∧ mapGet s.urls u.ShortCode = some u ∧
      mapGet s.urlsByID u.ID = some u
  code_eq : ∀ i u, mapGet s.urlsByID i = some u → u.ShortCode = EncodeBase62 u.ID
  ids_range : ∀ i, (mapGet s.urlsByID i).isSome ↔ (1 ≤ i ∧ i < s.nextID)
  len_urls : s.urls.length = s.urlsByID.length
  len_orig : s.urlsByOrig.length = s.urlsByID.length
  count_nextID : s.nextID = s.urlsByID.length + 1
  nodup_urls : (mapKeys s.urls).Nodup
  nodup_byID : (mapKeys s.urlsByID).Nodup
  nodup_byOrig : (mapKeys s.urlsByOrig).Nodup

section MapLemmas

variable {α β : Type} [DecidableEq α]

@[simp] lemma mapGet_nil (key : α) : mapGet ([] : List (α × β)) key = none := rfl

lemma mapGet_cons (k : α) (v : β) (rest : List (α × β)) (key : α) :
    mapGet ((k, v) :: rest) key = if key = k then some v else mapGet rest key := rfl

@[simp] lemma mapGet_mapErase_self (m : List (α × β)) (key : α) :
    mapGet (mapErase m key) key = none := by
  induction m with
  | nil => rfl
  | cons p rest ih =>
    obtain ⟨k, v⟩ := p
    by_cases h : key = k
    · simpa [mapErase, h] using ih
    · simpa [mapErase, h, mapGet_cons] using ih

lemma mapGet_mapErase_ne (m : List (α × β)) (key key' : α) (h : key' ≠ key) :
    mapGet (mapErase m key) key' = mapGet m key' := by
  induction m with
  | nil => rfl
  | cons p rest ih =>
    obtain ⟨k, v⟩ := p
    by_cases hk : key = k
    · subst hk
      simp [mapErase, mapGet_cons, h, ih]
    · simp only [mapErase, if_neg hk, mapGet_cons, ih]

@[simp] lemma mapGet_mapPut_self (m : List (α × β)) (key : α) (val : β) :
    mapGet (mapPut m key val) key = some val := by
  simp [mapPut, mapGet_cons]

lemma mapGet_mapPut_ne (m : List (α × β)) (key key' : α) (val : β) (h : key' ≠ key) :
    mapGet (mapPut m key val) key' = mapGet m key' := by
  simp [mapPut, mapGet_cons, h, mapGet_mapErase_ne m key key' h]

lemma mapErase_of_get_none (m : List (α × β)) (key : α) (h : mapGet m key = none) :
    mapErase m key = m := by
  induction m with
  | nil => rfl
  | cons p rest ih =>
    obtain ⟨k, v⟩ := p
    rw [mapGet_cons] at h
    by_cases hk : key = k
    · simp [hk] at h
    · rw [if_neg hk] at h
      simp [mapErase, hk, ih h]

lemma length_mapPut_of_get_none (m : List (α × β)) (key : α) (val : β)
    (h : mapGet m key = none) : (mapPut m key val).length = m.length + 1 := by
  simp [mapPut, mapErase_of_get_none m key h]

lemma not_mem_mapKeys_of_get_none (m : List (α × β)) (key : α)
    (h : mapGet m key = none) : key ∉ mapKeys m := by
  induction m with
  | nil => simp [mapKeys]
  | cons p rest ih =>
    obtain ⟨k, v⟩ := p
    rw [mapGet_cons] at h
    by_cases hk : key = k
    · simp [hk] at h
    · rw [if_neg hk] at h
      simp only [mapKeys, List.map_cons, List.mem_cons, not_or]
      exact ⟨hk, ih h⟩

lemma mapGet_eq_none_of_not_mem (m : List (α × β)) (key : α)
    (h : key ∉ mapKeys m) : mapGet m key = none := by
  induction m with
  | nil => rfl
  | cons p rest ih =>
    obtain ⟨k, v⟩ := p
    simp only [mapKeys, List.map_cons, List.mem_cons, not_or] at h
    rw [mapGet_cons, if_neg h.1]
    exact ih (by simpa [mapKeys] using h.2)

lemma mapKeys_mapErase_not_mem (m : List (α × β)) (key : α) :
    key ∉ mapKeys (mapErase m key) :=
  not_mem_mapKeys_of_get_none _ _ (mapGet_mapErase_self m key)

lemma mapKeys_mapErase_sublist (m : List (α × β)) (key : α) :
    List.Sublist (mapKeys (mapErase m key)) (mapKeys m) := by
  induction m with
  | nil => simp [mapErase, mapKeys]
  | cons p rest ih =>
    obtain ⟨k, v⟩ := p
    by_cases hk : key = k
    · simp only [mapErase, if_pos hk, mapKeys, List.map_cons]
      exact ih.trans (List.sublist_cons_self _ _)
    · simpa only [mapErase, if_neg hk, mapKeys, List.map_cons] using ih.cons₂ k

lemma nodup_mapKeys_mapPut (m : List (α × β)) (key : α) (val : β)
    (h : (mapKeys m).Nodup) : (mapKeys (mapPut m key val)).Nodup := by
  simp only [mapPut, mapKeys, List.map_cons, List.nodup_cons]
  exact ⟨mapKeys_mapErase_not_mem m key,
    (mapKeys_mapErase_sublist m key).nodup h⟩

lemma length_mapErase_of_get_some (m : List (α × β)) (key : α) (val : β)
    (h : mapGet m key = some val) (hnd : (mapKeys m).Nodup) :
    (mapErase m key).length + 1 = m.length := by
  induction m with
  | nil => simp at h
  | cons p rest ih =>
    obtain ⟨k, v⟩ := p
    simp only [mapKeys, List.map_cons, List.nodup_cons] at hnd
    rw [mapGet_cons] at h
    by_cases hk : key = k
    · subst hk
      rw [mapErase, if_pos rfl,
        mapErase_of_get_none rest key (mapGet_eq_none_of_not_mem rest key hnd.1)]
      simp
    · rw [if_neg hk] at h
      rw [mapErase, if_neg hk]
      simpa using ih h hnd.2

lemma length_mapPut_of_get_some (m : List (α × β)) (key : α) (val val' : β)
    (h : mapGet m key = some val') (hnd : (mapKeys m).Nodup) :
    (mapPut m key val).length = m.length := by
  simp only [mapPut, List.length_cons]
  exact length_mapErase_of_get_some m key val' h hnd

end MapLemmas

lemma encodeLoop_zero : encodeLoop 0 = [] := by
  rw [encodeLoop]
  simp

lemma encodeLoop_eq (num : Nat) (h : num ≠ 0) :
    encodeLoop num = base62Chars.getD (num % base) '0' :: encodeLoop (num / base) := by
  rw [encodeLoop]
  simp [h]

lemma base62Value_getD :
    ∀ m : Fin 62, base62Value (base62Chars.getD m.val '0') = some m.val := by decide

lemma base62Value_getD_nat (m : Nat) (hm : m < 62) :
    base62Value (base62Chars.getD m '0') = some m :=
  base62Value_getD ⟨m, hm⟩

/-- The decode loop inverts the encode loop as long as the true value fits in
a `uint64`: the wrapped `power` and `result` never actually wrap. -/
lemma decodeAux_encodeLoop :
    ∀ num power result : Nat, result + num * power < U64 →
      decodeAux (encodeLoop num) power result = result + num * power := by
  intro num
  induction num using Nat.strong_induction_on with
  | _ num ih =>
    intro power result hbound
    by_cases h0 : num = 0
    · subst h0
      simp [encodeLoop_zero, decodeAux]
    · rw [encodeLoop_eq num h0]
      simp only [decodeAux, base62Value_getD_nat (num % base) (Nat.mod_lt _ (by decide))]
      have hmp : (num % base) * power ≤ num * power :=
        Nat.mul_le_mul_right power (Nat.mod_le num base)
      have hr : result + (num % base) * power < U64 :=
        lt_of_le_of_lt (Nat.add_le_add_left hmp result) hbound
      rw [Nat.mod_eq_of_lt hr]
      by_cases hdiv : num / base = 0
      · rw [hdiv, encodeLoop_zero]
        simp only [decodeAux]
        have hlt : num < base := (Nat.div_eq_zero_iff (by decide)).mp hdiv
        rw [Nat.mod_eq_of_lt hlt]
      · have hge : base ≤ num := by
          by_contra hcon
          exact hdiv (Nat.div_eq_of_lt (Nat.lt_of_not_le hcon))
        have hpow : power * base ≤ num * power := by
          rw [Nat.mul_comm power base]
          exact Nat.mul_le_mul_right power hge
        have hpow2 : power * base < U64 :=
          lt_of_le_of_lt (le_trans hpow (Nat.le_add_left _ result)) hbound
        rw [Nat.mod_eq_of_lt hpow2]
        have key : (result + (num % base) * power) + (num / base) * (power * base)
            = result + num * power := by
          conv_rhs => rw [← Nat.mod_add_div num base]
          ring
        have hrec := ih (num / base) (Nat.div_lt_self (Nat.pos_of_ne_zero h0) (by decide))
          (power * base) (result + (num % base) * power) (key ▸ hbound)
        rw [hrec, key]

/-- Decoding inverts encoding on every `uint64` value. -/
lemma decode_encode (n : Nat) (h : n < U64) :
    DecodeBase62 (EncodeBase62 n) = n := by
  by_cases h0 : n = 0
  · subst h0; decide
  · unfold DecodeBase62 EncodeBase62
    simp only [h0, if_false, List.reverse_reverse]
    have := decodeAux_encodeLoop n 1 0 (by simpa using h)
    simpa using this

/-- C1: for every `uint64` value, `DecodeBase62 (EncodeBase62 n) = n`, and
`EncodeBase62` is injective over the full `uint64` range. -/
theorem base62_roundtrip_injective (m n : Nat) (hm : m < U64) (hn : n < U64) :
    DecodeBase62 (EncodeBase62 m) = m ∧ (EncodeBase62 m = EncodeBase62 n → m = n) := by
  refine ⟨decode_encode m hm, fun h => ?_⟩
  have hdm := decode_encode m hm
  rw [h, decode_encode n hn] at hdm
  exact hdm.symm

/-- Witness for C1 at `m = 12345`, `n = 678`. -/
theorem base62_roundtrip_injective_witness :
    DecodeBase62 (EncodeBase62 12345) = 12345 ∧
      (EncodeBase62 12345 = EncodeBase62 678 → (12345 : Nat) = 678) :=
  base62_roundtrip_injective 12345 678 (by decide) (by decide)

/-- C2 (evidence of the code bug): on input `"12!"`, whose `'!'` lies outside
the Base62 alphabet, `DecodeBase62` silently returns `0` — the same value as
the legitimate decode of `"0"` — instead of signalling a distinct
invalid-format error. -/
theorem decode_invalid_char_silent_zero :
    DecodeBase62 ['1', '2', '!'] = 0 ∧ DecodeBase62 ['0'] = 0 := by decide

lemma char_le_iff_toNat {a b : Char} : a ≤ b ↔ a.toNat ≤ b.toNat := Iff.rfl

lemma mem_base62Chars_of_toNat_bounds (c : Char) (lo hi : Nat)
    (hlo : lo ≤ c.toNat) (hhi : c.toNat < hi)
    (hall : ∀ n, n < hi → lo ≤ n → Char.ofNat n ∈ base62Chars) : c ∈ base62Chars := by
  rw [← Char.ofNat_toNat c]
  exact hall c.toNat hhi hlo

/-- A character lies in the alphabet constant `base62Chars` exactly when it
lies in one of the three ranges tested by `IsValidBase62`. -/
lemma mem_base62Chars_iff (c : Char) :
    c ∈ base62Chars ↔
      (('0' ≤ c ∧ c ≤ '9') ∨ ('a' ≤ c ∧ c ≤ 'z') ∨ ('A' ≤ c ∧ c ≤ 'Z')) := by
  constructor
  · intro h
    exact (by decide :
      ∀ x ∈ base62Chars,
        (('0' ≤ x ∧ x ≤ '9') ∨ ('a' ≤ x ∧ x ≤ 'z') ∨ ('A' ≤ x ∧ x ≤ 'Z'))) c h
  · rintro (⟨h1, h2⟩ | ⟨h1, h2⟩ | ⟨h1, h2⟩)
    · exact mem_base62Chars_of_toNat_bounds c 48 58
        (char_le_iff_toNat.mp h1) (Nat.lt_succ_of_le (char_le_iff_toNat.mp h2))
        (by decide)
    · exact mem_base62Chars_of_toNat_bounds c 97 123
        (char_le_iff_toNat.mp h1) (Nat.lt_succ_of_le (char_le_iff_toNat.mp h2))
        (by decide)
    · exact mem_base62Chars_of_toNat_bounds c 65 91
        (char_le_iff_toNat.mp h1) (Nat.lt_succ_of_le (char_le_iff_toNat.mp h2))
        (by decide)

/-- C8: `IsValidBase62 s` is true exactly when `s` is non-empty and every
character of `s` belongs to the 62-symbol alphabet. -/
theorem isValidBase62_iff (s : List Char) :
    IsValidBase62 s = true ↔ s ≠ [] ∧ ∀ c ∈ s, c ∈ base62Chars := by
  unfold IsValidBase62
  rcases s with _ | ⟨c, cs⟩
  · simp
  · simp [List.all_eq_true, mem_base62Chars_iff]


lemma inv_new : Inv NewMemoryStorage := by
  refine ⟨?_, ?_, ?_, ?_, ?_, rfl, rfl, rfl, List.nodup_nil, List.nodup_nil,
    List.nodup_nil⟩
  · intro c u hget; simp [NewMemoryStorage] at hget
  · intro i u hget; simp [NewMemoryStorage] at hget
  · intro o u hget; simp [NewMemoryStorage] at hget
  · intro i u hget; simp [NewMemoryStorage] at hget
  · intro i
    simp only [NewMemoryStorage, mapGet_nil, Option.isSome_none]
    constructor
    · intro h; exact absurd h (by decide)
    · intro h; omega

/-- Under the invariant, `nextID` is not yet an assigned id. -/
lemma fresh_id {s : MemoryStorage} (hInv : Inv s) :
    mapGet s.urlsByID s.nextID = none := by
  have h := hInv.ids_range s.nextID
  cases hget : mapGet s.urlsByID s.nextID with
  | none => rfl
  | some u =>
    rw [hget] at h
    exact absurd ((h.mp rfl).2) (lt_irrefl _)

/-- Under the invariant, ids in the by-id index are below `nextID`. -/
lemma id_lt_nextID {s : MemoryStorage} (hInv : Inv s) {i : Nat} {u : URL}
    (hget : mapGet s.urlsByID i = some u) : i < s.nextID := by
  have h := (hInv.ids_range i).mp (by rw [hget]; rfl)
  exact h.2

/-- Under the invariant, the code of the next record is not yet a key of the
by-code index: all present codes encode smaller ids and `EncodeBase62` is
injective below `U64`. -/
lemma fresh_code {s : MemoryStorage} (hInv : Inv s) (hU : s.nextID < U64) :
    mapGet s.urls (EncodeBase62 s.nextID) = none := by
  cases hget : mapGet s.urls (EncodeBase62 s.nextID) with
  | none => rfl
  | some u =>
    obtain ⟨hcode, hID, -⟩ := hInv.urls_sound _ u hget
    have hlt : u.ID < s.nextID := id_lt_nextID hInv hID
    have hcodeEq := hInv.code_eq u.ID u hID
    have h1 : EncodeBase62 u.ID = EncodeBase62 s.nextID := by
      rw [← hcodeEq, hcode]
    have hd1 := decode_encode u.ID (lt_trans hlt hU)
    rw [h1, decode_encode s.nextID hU] at hd1
    exact absurd hd1.symm (Nat.ne_of_lt hlt)

/-- `Save` preserves the invariant as long as the id counter cannot wrap. -/
lemma inv_save {s : MemoryStorage} (hInv : Inv s) (hU : s.nextID + 1 < U64)
    (now : Nat) (orig : List Char) : Inv (s.Save now orig).2 := by
  cases horig : mapGet s.urlsByOrig orig with
  | some r =>
    simpa [MemoryStorage.Save, horig] using hInv
  | none =>
    have hfid : mapGet s.urlsByID s.nextID = none := fresh_id hInv
    have hfcode : mapGet s.urls (EncodeBase62 s.nextID) = none :=
      fresh_code hInv (by omega)
    have hmod : (s.nextID + 1) % U64 = s.nextID + 1 := Nat.mod_eq_of_lt hU
    have hpos : 1 ≤ s.nextID := by
      rw [hInv.count_nextID]; omega
    simp only [MemoryStorage.Save, horig]
    refine ⟨?_, ?_, ?_, ?_, ?_, ?_, ?_, ?_, ?_, ?_, ?_⟩
    · intro c u hget
      by_cases hc : c = EncodeBase62 s.nextID
      · subst hc
        rw [mapGet_mapPut_self] at hget
        cases hget
        exact ⟨rfl, mapGet_mapPut_self _ _ _, mapGet_mapPut_self _ _ _⟩
      · rw [mapGet_mapPut_ne _ _ _ _ hc] at hget
        obtain ⟨h1, h2, h3⟩ := hInv.urls_sound c u hget
        have hid : u.ID ≠ s.nextID := Nat.ne_of_lt (id_lt_nextID hInv h2)
        have ho : u.OriginalURL ≠ orig := by
          intro he; rw [he, horig] at h3; exact Option.noConfusion h3
        exact ⟨h1, by rw [mapGet_mapPut_ne _ _ _ _ hid]; exact h2,
          by rw [mapGet_mapPut_ne _ _ _ _ ho]; exact h3⟩
    · intro i u hget
      by_cases hi : i = s.nextID
      · subst hi
        rw [mapGet_mapPut_self] at hget
        cases hget
        exact ⟨rfl, mapGet_mapPut_self _ _ _, mapGet_mapPut_self _ _ _⟩
      · rw [mapGet_mapPut_ne _ _ _ _ hi] at hget
        obtain ⟨h1, h2, h3⟩ := hInv.byID_sound i u hget
        have hco : u.ShortCode ≠ EncodeBase62 s.nextID := by
          intro he; rw [he, hfcode] at h2; exact Option.noConfusion h2
        have ho : u.OriginalURL ≠ orig := by
          intro he; rw [he, horig] at h3; exact Option.noConfusion h3
        exact ⟨h1, by rw [mapGet_mapPut_ne _ _ _ _ hco]; exact h2,
          by rw [mapGet_mapPut_ne _ _ _ _ ho]; exact h3⟩
    · intro o u hget
      by_cases ho : o = orig
      · subst ho
        rw [mapGet_mapPut_self] at hget
        cases hget
        exact ⟨rfl, mapGet_mapPut_self _ _ _, mapGet_mapPut_self _ _ _⟩
      · rw [mapGet_mapPut_ne _ _ _ _ ho] at hget
        obtain ⟨h1, h2, h3⟩ := hInv.byOrig_sound o u hget
        have hco : u.ShortCode ≠ EncodeBase62 s.nextID := by
          intro he; rw [he, hfcode] at h2; exact Option.noConfusion h2
        have hid : u.ID ≠ s.nextID := Nat.ne_of_lt (id_lt_nextID hInv h3)
        exact ⟨h1, by rw [mapGet_mapPut_ne _ _ _ _ hco]; exact h2,
          by rw [mapGet_mapPut_ne _ _ _ _ hid]; exact h3⟩
    · intro i u hget
      by_cases hi : i = s.nextID
      · subst hi
        rw [mapGet_mapPut_self] at hget
        cases hget
        rfl
      · rw [mapGet_mapPut_ne _ _ _ _ hi] at hget
        exact hInv.code_eq i u hget
    · intro i
      dsimp only
      rw [hmod]
      by_cases hi : i = s.nextID
      · subst hi
        rw [mapGet_mapPut_self]
        simp only [Option.isSome_some, true_iff]
        omega
      · rw [mapGet_mapPut_ne _ _ _ _ hi, hInv.ids_range i]
        omega
    · rw [length_mapPut_of_get_none _ _ _ hfcode,
        length_mapPut_of_get_none _ _ _ hfid, hInv.len_urls]
    · rw [length_mapPut_of_get_none _ _ _ horig,
        length_mapPut_of_get_none _ _ _ hfid, hInv.len_orig]
    · rw [length_mapPut_of_get_none _ _ _ hfid, hmod, hInv.count_nextID]
    · exact nodup_mapKeys_mapPut _ _ _ hInv.nodup_urls
    · exact nodup_mapKeys_mapPut _ _ _ hInv.nodup_byID
    · exact nodup_mapKeys_mapPut _ _ _ hInv.nodup_byOrig

/-- `IncrementAccessCount` preserves the invariant: only the shared record's
`AccessCount` changes. -/
lemma inv_increment {s : MemoryStorage} (hInv : Inv s) (code : List Char) :
    Inv (s.IncrementAccessCount code).2 := by
  cases hget : mapGet s.urls code with
  | none =>
    simpa [MemoryStorage.IncrementAccessCount, hget] using hInv
  | some url =>
    obtain ⟨hcode, hbyID, hbyOrig⟩ := hInv.urls_sound code url hget
    simp only [MemoryStorage.IncrementAccessCount, hget]
    set url' : URL := { url with AccessCount := (url.AccessCount + 1) % U64 } with hurl2
    have hsame : ∀ {c2 u2}, mapGet s.urls c2 = some u2 → c2 ≠ code → u2.ID ≠ url.ID := by
      intro c2 u2 h2 hne he
      obtain ⟨hc2, hid2, -⟩ := hInv.urls_sound c2 u2 h2
      rw [he, hbyID] at hid2
      cases hid2
      exact hne (hc2 ▸ hcode)
    have hsameOrig : ∀ {c2 u2}, mapGet s.urls c2 = some u2 → c2 ≠ code →
        u2.OriginalURL ≠ url.OriginalURL := by
      intro c2 u2 h2 hne he
      obtain ⟨hc2, -, horig2⟩ := hInv.urls_sound c2 u2 h2
      rw [he, hbyOrig] at horig2
      cases horig2
      exact hne (hc2 ▸ hcode)
    refine ⟨?_, ?_, ?_, ?_, ?_, ?_, ?_, ?_, ?_, ?_, ?_⟩
    · intro c u hg
      by_cases hc : c = code
      · subst hc
        rw [mapGet_mapPut_self] at hg
        cases hg
        refine ⟨hcode, ?_, ?_⟩
        · show mapGet (mapPut s.urlsByID url.ID url') url'.ID = some url'
          exact mapGet_mapPut_self _ _ _
        · show mapGet (mapPut s.urlsByOrig url.OriginalURL url') url'.OriginalURL = some url'
          exact mapGet_mapPut_self _ _ _
      · rw [mapGet_mapPut_ne _ _ _ _ hc] at hg
        obtain ⟨h1, h2, h3⟩ := hInv.urls_sound c u hg
        exact ⟨h1, by rw [mapGet_mapPut_ne _ _ _ _ (hsame hg hc)]; exact h2,
          by rw [mapGet_mapPut_ne _ _ _ _ (hsameOrig hg hc)]; exact h3⟩
    · intro i u hg
      by_cases hi : i = url.ID
      · subst hi
        rw [mapGet_mapPut_self] at hg
        cases hg
        refine ⟨rfl, ?_, ?_⟩
        · show mapGet (mapPut s.urls code url') url'.ShortCode = some url'
          rw [show url'.ShortCode = code from hcode]
          exact mapGet_mapPut_self _ _ _
        · show mapGet (mapPut s.urlsByOrig url.OriginalURL url') url'.OriginalURL = some url'
          exact mapGet_mapPut_self _ _ _
      · rw [mapGet_mapPut_ne _ _ _ _ hi] at hg
        obtain ⟨h1, h2, h3⟩ := hInv.byID_sound i u hg
        have hcne : u.ShortCode ≠ code := by
          intro he
          rw [he, hget] at h2
          cases h2
          exact hi (h1 ▸ rfl)
        exact ⟨h1, by rw [mapGet_mapPut_ne _ _ _ _ hcne]; exact h2,
          by rw [mapGet_mapPut_ne _ _ _ _ (hsameOrig h2 hcne)]; exact h3⟩
    · intro o u hg
      by_cases ho : o = url.OriginalURL
      · subst ho
        rw [mapGet_mapPut_self] at hg
        cases hg
        refine ⟨rfl, ?_, ?_⟩
        · show mapGet (mapPut s.urls code url') url'.ShortCode = some url'
          rw [show url'.ShortCode = code from hcode]
          exact mapGet_mapPut_self _ _ _
        · show mapGet (mapPut s.urlsByID url.ID url') url'.ID = some url'
          exact mapGet_mapPut_self _ _ _
      · rw [mapGet_mapPut_ne _ _ _ _ ho] at hg
        obtain ⟨h1, h2, h3⟩ := hInv.byOrig_sound o u hg
        have hcne : u.ShortCode ≠ code := by
          intro he
          rw [he, hget] at h2
          cases h2
          exact ho (h1 ▸ rfl)
        exact ⟨h1, by rw [mapGet_mapPut_ne _ _ _ _ hcne]; exact h2,
          by rw [mapGet_mapPut_ne _ _ _ _ (hsame h2 hcne)]; exact h3⟩
    · intro i u hg
      by_cases hi : i = url.ID
      · subst hi
        rw [mapGet_mapPut_self] at hg
        cases hg
        show url'.ShortCode = EncodeBase62 url'.ID
        exact hInv.code_eq url.ID url hbyID
      · rw [mapGet_mapPut_ne _ _ _ _ hi] at hg
        exact hInv.code_eq i u hg
    · intro i
      dsimp only
      by_cases hi : i = url.ID
      · subst hi
        rw [mapGet_mapPut_self]
        have := (hInv.ids_range url.ID).mp (by rw [hbyID]; rfl)
        simp only [Option.isSome_some, true_iff]
        exact this
      · rw [mapGet_mapPut_ne _ _ _ _ hi]
        exact hInv.ids_range i
    · dsimp only
      rw [length_mapPut_of_get_some _ _ _ _ hget hInv.nodup_urls,
        length_mapPut_of_get_some _ _ _ _ hbyID hInv.nodup_byID, hInv.len_urls]
    · dsimp only
      rw [length_mapPut_of_get_some _ _ _ _ hbyOrig hInv.nodup_byOrig,
        length_mapPut_of_get_some _ _ _ _ hbyID hInv.nodup_byID, hInv.len_orig]
    · dsimp only
      rw [length_mapPut_of_get_some _ _ _ _ hbyID hInv.nodup_byID]
      exact hInv.count_nextID
    · exact nodup_mapKeys_mapPut _ _ _ hInv.nodup_urls
    · exact nodup_mapKeys_mapPut _ _ _ hInv.nodup_byID
    · exact nodup_mapKeys_mapPut _ _ _ hInv.nodup_byOrig

/-- Every operation preserves the invariant while the id counter cannot wrap. -/
lemma inv_applyOp {s : MemoryStorage} (hInv : Inv s) (hU : s.nextID + 1 < U64)
    (op : Op) : Inv (applyOp s op) := by
  cases op with
  | save now u => exact inv_save hInv hU now u
  | getByShortCode c => exact hInv
  | getByID i => exact hInv
  | incrementAccessCount c => exact inv_increment hInv c
  | getStats => exact hInv

/-- One operation advances the id counter by at most one. -/
lemma applyOp_nextID_le (s : MemoryStorage) (op : Op) (hU : s.nextID + 1 < U64) :
    (applyOp s op).nextID ≤ s.nextID + 1 := by
  cases op with
  | save now u =>
    simp only [applyOp, MemoryStorage.Save]
    cases mapGet s.urlsByOrig u with
    | some r => exact Nat.le_succ _
    | none => exact Nat.le_of_eq (Nat.mod_eq_of_lt hU)
  | getByShortCode c => exact Nat.le_succ _
  | getByID i => exact Nat.le_succ _
  | incrementAccessCount c =>
    simp only [applyOp, MemoryStorage.IncrementAccessCount]
    cases mapGet s.urls c with
    | some r => exact Nat.le_succ _
    | none => exact Nat.le_succ _
  | getStats => exact Nat.le_succ _

lemma runOps_cons (s : MemoryStorage) (op : Op) (rest : List Op) :
    runOps s (op :: rest) = runOps (applyOp s op) rest := rfl

/-- Running any operation sequence from an invariant state keeps the
invariant and bounds the counter, as long as the id space is not exhausted. -/
lemma run_inv : ∀ (ops : List Op) (s : MemoryStorage), Inv s →
    s.nextID + ops.length < U64 →
    Inv (runOps s ops) ∧ (runOps s ops).nextID ≤ s.nextID + ops.length := by
  intro ops
  induction ops with
  | nil =>
    intro s hInv hb
    exact ⟨hInv, Nat.le_refl _⟩
  | cons op rest ih =>
    intro s hInv hb
    simp only [List.length_cons] at hb
    have hU : s.nextID + 1 < U64 := by omega
    have hInv2 := inv_applyOp hInv hU op
    have hle := applyOp_nextID_le s op hU
    have hrec := ih (applyOp s op) hInv2 (by omega)
    rw [runOps_cons]
    refine ⟨hrec.1, ?_⟩
    have h2 := hrec.2
    simp only [List.length_cons]
    omega

/-- Invariance of every state reachable from a fresh store. -/
lemma inv_runOps_new (ops : List Op) (h : ops.length + 1 < U64) :
    Inv (runOps NewMemoryStorage ops) ∧
      (runOps NewMemoryStorage ops).nextID ≤ ops.length + 1 := by
  have hone : NewMemoryStorage.nextID = 1 := rfl
  have hb : NewMemoryStorage.nextID + ops.length < U64 := by omega
  have := run_inv ops NewMemoryStorage inv_new hb
  exact ⟨this.1, by have h2 := this.2; omega⟩

/-! ## Claim theorems -/

/-- C9: `Save` never fails — it returns a record with a `nil` error for every
state and input — and no storage operation ever returns the declared
`ErrURLExists` sentinel. -/
theorem save_never_fails (s : MemoryStorage) (now : Nat) (u c c2 : List Char) (i : Nat) :
    (s.Save now u).1.2 = none ∧
    s.GetByShortCode c ≠ Except.error StorageErr.ErrURLExists ∧
    s.GetByID i ≠ Except.error StorageErr.ErrURLExists ∧
    (s.IncrementAccessCount c2).1 ≠ some StorageErr.ErrURLExists := by
  refine ⟨?_, ?_, ?_, ?_⟩
  · unfold MemoryStorage.Save
    cases mapGet s.urlsByOrig u <;> rfl
  · unfold MemoryStorage.GetByShortCode
    cases mapGet s.urls c <;> simp
  · unfold MemoryStorage.GetByID
    cases mapGet s.urlsByID i <;> simp
  · unfold MemoryStorage.IncrementAccessCount
    cases mapGet s.urls c2 <;> simp

/-- C10: in every reachable state the three indices describe the same record
set, with `urls[r.ShortCode] = urlsByID[r.ID] = urlsByOrig[r.OriginalURL] = r`
and `r.ShortCode = EncodeBase62 r.ID`; the assigned ids are exactly
`1 .. nextID - 1` and `nextID` is the record count plus one. -/
theorem index_coherence (ops : List Op) (s : MemoryStorage)
    (hreach : runOps NewMemoryStorage ops = s) (h : ops.length + 1 < U64) :
    (∀ c u, mapGet s.urls c = some u → u.ShortCode = c ∧
      mapGet s.urlsByID u.ID = some u ∧ mapGet s.urlsByOrig u.OriginalURL = some u) ∧
    (∀ i u, mapGet s.urlsByID i = some u → u.ID = i ∧
      mapGet s.urls u.ShortCode = some u ∧ mapGet s.urlsByOrig u.OriginalURL = some u) ∧
    (∀ o u, mapGet s.urlsByOrig o = some u → u.OriginalURL = o ∧
      mapGet s.urls u.ShortCode = some u ∧ mapGet s.urlsByID u.ID = some u) ∧
    (∀ i u, mapGet s.urlsByID i = some u → u.ShortCode = EncodeBase62 u.ID) ∧
    (∀ i, (mapGet s.urlsByID i).isSome ↔ (1 ≤ i ∧ i < s.nextID)) ∧
    s.urls.length = s.urlsByID.length ∧
    s.urlsByOrig.length = s.urlsByID.length ∧
    s.nextID = s.urlsByID.length + 1 := by
  obtain ⟨hInv, -⟩ := inv_runOps_new ops h
  rw [hreach] at hInv
  exact ⟨hInv.urls_sound, hInv.byID_sound, hInv.byOrig_sound, hInv.code_eq,
    hInv.ids_range, hInv.len_urls, hInv.len_orig, hInv.count_nextID⟩

/-- Witness for C10 at the empty operation sequence. -/
theorem index_coherence_witness :
    (∀ c u, mapGet NewMemoryStorage.urls c = some u → u.ShortCode = c ∧
      mapGet NewMemoryStorage.urlsByID u.ID = some u ∧
      mapGet NewMemoryStorage.urlsByOrig u.OriginalURL = some u) ∧
    (∀ i u, mapGet NewMemoryStorage.urlsByID i = some u → u.ID = i ∧
      mapGet NewMemoryStorage.urls u.ShortCode = some u ∧
      mapGet NewMemoryStorage.urlsByOrig u.OriginalURL = some u) ∧
    (∀ o u, mapGet NewMemoryStorage.urlsByOrig o = some u → u.OriginalURL = o ∧
      mapGet NewMemoryStorage.urls u.ShortCode = some u ∧
      mapGet NewMemoryStorage.urlsByID u.ID = some u) ∧
    (∀ i u, mapGet NewMemoryStorage.urlsByID i = some u →
      u.ShortCode = EncodeBase62 u.ID) ∧
    (∀ i, (mapGet NewMemoryStorage.urlsByID i).isSome ↔
      (1 ≤ i ∧ i < NewMemoryStorage.nextID)) ∧
    NewMemoryStorage.urls.length = NewMemoryStorage.urlsByID.length ∧
    NewMemoryStorage.urlsByOrig.length = NewMemoryStorage.urlsByID.length ∧
    NewMemoryStorage.nextID = NewMemoryStorage.urlsByID.length + 1 :=
  index_coherence [] NewMemoryStorage rfl (by decide)

/-- C4 counterexample: at the fresh store the stats snapshot has exactly the
two fields `total_urls` and `next_id`; there is no total-accesses field of
any name, so the claimed three-field shape is false. -/
theorem getStats_no_totalAccesses :
    MemoryStorage.GetStats NewMemoryStorage = [("total_urls", 0), ("next_id", 1)] ∧
    mapGet (MemoryStorage.GetStats NewMemoryStorage) "total_accesses" = none ∧
    (MemoryStorage.GetStats NewMemoryStorage).length = 2 :=
  ⟨rfl, rfl, rfl⟩

/-- C4 (amended): in every reachable state `GetStats` returns a snapshot of
exactly two fields, `total_urls` — the stored record count — and `next_id` —
the current id counter, equal to the record count plus one; there is no
total-accesses field. -/
theorem getStats_fields (ops : List Op) (s : MemoryStorage)
    (hreach : runOps NewMemoryStorage ops = s) (h : ops.length + 1 < U64) :
    mapGet s.GetStats "total_urls" = some s.urlsByID.length ∧
    mapGet s.GetStats "next_id" = some (s.urlsByID.length + 1) ∧
    mapGet s.GetStats "total_accesses" = none ∧
    s.GetStats.length = 2 := by
  obtain ⟨hInv, -⟩ := inv_runOps_new ops h
  rw [hreach] at hInv
  have h1 : mapGet s.GetStats "total_urls" = some s.urls.length := rfl
  have h2 : mapGet s.GetStats "next_id" = some s.nextID := rfl
  refine ⟨?_, ?_, rfl, rfl⟩
  · rw [h1, hInv.len_urls]
  · rw [h2, hInv.count_nextID]

/-- Witness for C4 (amended) at the empty operation sequence. -/
theorem getStats_fields_witness :
    mapGet NewMemoryStorage.GetStats "total_urls" =
      some NewMemoryStorage.urlsByID.length ∧
    mapGet NewMemoryStorage.GetStats "next_id" =
      some (NewMemoryStorage.urlsByID.length + 1) ∧
    mapGet NewMemoryStorage.GetStats "total_accesses" = none ∧
    NewMemoryStorage.GetStats.length = 2 :=
  getStats_fields [] NewMemoryStorage rfl (by decide)

/-- C5: on the non-duplicate path of `Save` in a reachable state, the new
record's id is the current record count plus one (ids start at 1 and are
`1 .. count` exactly), is strictly greater than every previously assigned id,
was never assigned before, and is recorded for the new record afterwards. -/
theorem ids_sequential (ops : List Op) (s : MemoryStorage)
    (hreach : runOps NewMemoryStorage ops = s) (h : ops.length + 1 < U64)
    (now : Nat) (u : List Char)
    (hfresh : mapGet s.urlsByOrig u = none) :
    (s.Save now u).1.1.ID = s.urlsByID.length + 1 ∧
    mapGet s.urlsByID (s.Save now u).1.1.ID = none ∧
    (∀ i u2, mapGet s.urlsByID i = some u2 → u2.ID < (s.Save now u).1.1.ID) ∧
    (∀ i, (mapGet s.urlsByID i).isSome ↔ (1 ≤ i ∧ i ≤ s.urlsByID.length)) ∧
    mapGet (s.Save now u).2.urlsByID (s.Save now u).1.1.ID = some (s.Save now u).1.1 := by
  obtain ⟨hInv, -⟩ := inv_runOps_new ops h
  rw [hreach] at hInv
  have hid : (s.Save now u).1.1.ID = s.nextID := by
    simp [MemoryStorage.Save, hfresh]
  refine ⟨?_, ?_, ?_, ?_, ?_⟩
  · rw [hid, hInv.count_nextID]
  · rw [hid]
    exact fresh_id hInv
  · intro i u2 hg
    rw [hid]
    have h1 := (hInv.byID_sound i u2 hg).1
    exact h1 ▸ id_lt_nextID hInv hg
  · intro i
    rw [hInv.ids_range i, hInv.count_nextID]
    omega
  · simp [MemoryStorage.Save, hfresh]

/-- C3: `Save` is idempotent per original URL — on a URL already present in
the by-original index it returns the existing record (same id, code and
creation time) with no state change, and two calls on a fresh URL create
exactly one record: the count rises by one, not two. -/
theorem save_idempotent (ops : List Op) (s : MemoryStorage)
    (hreach : runOps NewMemoryStorage ops = s) (h : ops.length + 1 < U64)
    (now1 now2 : Nat) (u1 u2 : List Char) (r : URL)
    (hdup : mapGet s.urlsByOrig u1 = some r)
    (hfresh : mapGet s.urlsByOrig u2 = none) :
    s.Save now1 u1 = ((r, none), s) ∧
    (s.Save now1 u2).2.Save now2 u2 = (((s.Save now1 u2).1.1, none), (s.Save now1 u2).2) ∧
    (s.Save now1 u2).2.urls.length = s.urls.length + 1 ∧
    ((s.Save now1 u2).2.Save now2 u2).2.urls.length = s.urls.length + 1 := by
  obtain ⟨hInv, hle⟩ := inv_runOps_new ops h
  rw [hreach] at hInv hle
  have hU : s.nextID < U64 := lt_of_le_of_lt hle h
  have hfcode : mapGet s.urls (EncodeBase62 s.nextID) = none := fresh_code hInv hU
  have hsecond : (s.Save now1 u2).2.Save now2 u2 =
      (((s.Save now1 u2).1.1, none), (s.Save now1 u2).2) := by
    simp only [MemoryStorage.Save, hfresh]
    rw [mapGet_mapPut_self]
  have hlen : (s.Save now1 u2).2.urls.length = s.urls.length + 1 := by
    simp only [MemoryStorage.Save, hfresh]
    exact length_mapPut_of_get_none _ _ _ hfcode
  refine ⟨by simp [MemoryStorage.Save, hdup], hsecond, hlen, ?_⟩
  rw [hsecond]
  exact hlen

/-- Sequential increments accumulate exactly, as long as the counter does not
wrap. -/
lemma iterIncrement_get (s : MemoryStorage) (code : List Char) (r : URL)
    (hr : mapGet s.urls code = some r) :
    ∀ K, r.AccessCount + K < U64 →
      mapGet (iterIncrement s code K).urls code =
        some { r with AccessCount := r.AccessCount + K } := by
  intro K
  induction K with
  | zero => intro _; exact hr
  | succ k ih =>
    intro hbound
    have hk := ih (by omega)
    simp only [iterIncrement, MemoryStorage.IncrementAccessCount, hk]
    rw [mapGet_mapPut_self]
    have hAC : ({ r with AccessCount := r.AccessCount + k } : URL).AccessCount + 1
        = r.AccessCount + (k + 1) := by
      dsimp only
      omega
    rw [hAC, Nat.mod_eq_of_lt hbound]

/-- C6: in every reachable state, `IncrementAccessCount` on a present code
succeeds and raises exactly that record's `AccessCount` by one, leaving the
record's other fields, every other index entry, the record count and the id
counter unchanged; on an absent code it returns `ErrURLNotFound` with the
state untouched; `K` sequential calls add exactly `K`. -/
theorem increment_frame (ops : List Op) (s : MemoryStorage)
    (hreach : runOps NewMemoryStorage ops = s) (h : ops.length + 1 < U64)
    (code codeAbs : List Char) (r : URL) (K : Nat)
    (hr : mapGet s.urls code = some r)
    (habs : mapGet s.urls codeAbs = none)
    (hK : r.AccessCount + K < U64) :
    (s.IncrementAccessCount code).1 = none ∧
    mapGet (s.IncrementAccessCount code).2.urls code =
      some { r with AccessCount := (r.AccessCount + 1) % U64 } ∧
    (∀ c2, c2 ≠ code →
      mapGet (s.IncrementAccessCount code).2.urls c2 = mapGet s.urls c2) ∧
    (∀ i, i ≠ r.ID →
      mapGet (s.IncrementAccessCount code).2.urlsByID i = mapGet s.urlsByID i) ∧
    mapGet (s.IncrementAccessCount code).2.urlsByID r.ID =
      some { r with AccessCount := (r.AccessCount + 1) % U64 } ∧
    (∀ o, o ≠ r.OriginalURL →
      mapGet (s.IncrementAccessCount code).2.urlsByOrig o = mapGet s.urlsByOrig o) ∧
    (s.IncrementAccessCount code).2.nextID = s.nextID ∧
    (s.IncrementAccessCount code).2.urls.length = s.urls.length ∧
    s.IncrementAccessCount codeAbs = (some StorageErr.ErrURLNotFound, s) ∧
    mapGet (iterIncrement s code K).urls code =
      some { r with AccessCount := r.AccessCount + K } := by
  obtain ⟨hInv, -⟩ := inv_runOps_new ops h
  rw [hreach] at hInv
  refine ⟨?_, ?_, ?_, ?_, ?_, ?_, ?_, ?_, ?_, iterIncrement_get s code r hr K hK⟩
  · simp [MemoryStorage.IncrementAccessCount, hr]
  · simp only [MemoryStorage.IncrementAccessCount, hr]
    rw [mapGet_mapPut_self]
  · intro c2 hne
    simp only [MemoryStorage.IncrementAccessCount, hr]
    exact mapGet_mapPut_ne _ _ _ _ hne
  · intro i hne
    simp only [MemoryStorage.IncrementAccessCount, hr]
    exact mapGet_mapPut_ne _ _ _ _ hne
  · simp only [MemoryStorage.IncrementAccessCount, hr]
    rw [mapGet_mapPut_self]
  · intro o hne
    simp only [MemoryStorage.IncrementAccessCount, hr]
    exact mapGet_mapPut_ne _ _ _ _ hne
  · simp [MemoryStorage.IncrementAccessCount, hr]
  · simp only [MemoryStorage.IncrementAccessCount, hr]
    exact length_mapPut_of_get_some _ _ _ _ hr hInv.nodup_urls
  · simp [MemoryStorage.IncrementAccessCount, habs]

/-- C7: lookup failures are typed and distinct — codes failing the
alphabet/non-empty check yield `ErrInvalidShortCode` from both service
lookups, well-formed but absent codes yield `ErrURLNotFound`, an absent id
yields the storage `ErrURLNotFound`, and the two service errors are never
conflated. -/
theorem lookup_errors_typed (cfg : Config) (s : MemoryStorage)
    (codeBad codeOK : List Char) (id : Nat)
    (hbad : IsValidBase62 codeBad = false)
    (hok : IsValidBase62 codeOK = true)
    (habs : mapGet s.urls codeOK = none)
    (hid : mapGet s.urlsByID id = none) :
    (URLService.GetOriginalURL s codeBad).1 =
      Except.error ServiceError.ErrInvalidShortCode ∧
    URLService.GetURLInfo cfg s codeBad =
      Except.error ServiceError.ErrInvalidShortCode ∧
    (URLService.GetOriginalURL s codeOK).1 =
      Except.error ServiceError.ErrURLNotFound ∧
    URLService.GetURLInfo cfg s codeOK =
      Except.error ServiceError.ErrURLNotFound ∧
    s.GetByID id = Except.error StorageErr.ErrURLNotFound ∧
    ServiceError.ErrInvalidShortCode ≠ ServiceError.ErrURLNotFound := by
  refine ⟨?_, ?_, ?_, ?_, ?_, by decide⟩
  · simp [URLService.GetOriginalURL, hbad]
  · simp [URLService.GetURLInfo, hbad]
  · simp [URLService.GetOriginalURL, hok, MemoryStorage.GetByShortCode, habs,
      wrapStorageError]
  · simp [URLService.GetURLInfo, hok, MemoryStorage.GetByShortCode, habs,
      wrapStorageError]
  · simp [MemoryStorage.GetByID, hid]

/-! ## Concrete evaluation helpers and witnesses -/

lemma encodeBase62_one : EncodeBase62 1 = ['1'] := by
  have h1 : (1 : Nat) % base = 1 := rfl
  have h2 : (1 : Nat) / base = 0 := rfl
  unfold EncodeBase62
  rw [if_neg (by decide), encodeLoop_eq 1 (by decide), h1, h2, encodeLoop_zero]
  rfl

/-- The state after one `save` of `"a"` on a fresh store. -/
lemma run_save_a :
    runOps NewMemoryStorage [Op.save 0 ['a']] =
      { urls := [(['1'], ⟨1, ['a'], ['1'], 0, 0⟩)],
        urlsByID := [(1, ⟨1, ['a'], ['1'], 0, 0⟩)],
        urlsByOrig := [(['a'], ⟨1, ['a'], ['1'], 0, 0⟩)],
        nextID := 2 } := by
  show (NewMemoryStorage.Save 0 ['a']).2 = _
  simp [MemoryStorage.Save, NewMemoryStorage, mapPut, mapErase, encodeBase62_one, U64]

/-- Witness for C5 on the fresh store with URL `"a"`. -/
theorem ids_sequential_witness :
    (NewMemoryStorage.Save 0 ['a']).1.1.ID = NewMemoryStorage.urlsByID.length + 1 ∧
    mapGet NewMemoryStorage.urlsByID (NewMemoryStorage.Save 0 ['a']).1.1.ID = none ∧
    (∀ i u2, mapGet NewMemoryStorage.urlsByID i = some u2 →
      u2.ID < (NewMemoryStorage.Save 0 ['a']).1.1.ID) ∧
    (∀ i, (mapGet NewMemoryStorage.urlsByID i).isSome ↔
      (1 ≤ i ∧ i ≤ NewMemoryStorage.urlsByID.length)) ∧
    mapGet (NewMemoryStorage.Save 0 ['a']).2.urlsByID
        (NewMemoryStorage.Save 0 ['a']).1.1.ID =
      some (NewMemoryStorage.Save 0 ['a']).1.1 :=
  ids_sequential [] NewMemoryStorage rfl (by decide) 0 ['a'] rfl

/-- Witness for C3: after saving `"a"`, saving `"a"` again returns the
existing record with an unchanged store, and two saves of the fresh `"b"`
add exactly one record. -/
theorem save_idempotent_witness :
    (runOps NewMemoryStorage [Op.save 0 ['a']]).Save 1 ['a'] =
      (((⟨1, ['a'], EncodeBase62 1, 0, 0⟩ : URL), none),
        runOps NewMemoryStorage [Op.save 0 ['a']]) ∧
    ((runOps NewMemoryStorage [Op.save 0 ['a']]).Save 1 ['b']).2.Save 2 ['b'] =
      ((((runOps NewMemoryStorage [Op.save 0 ['a']]).Save 1 ['b']).1.1, none),
        ((runOps NewMemoryStorage [Op.save 0 ['a']]).Save 1 ['b']).2) ∧
    ((runOps NewMemoryStorage [Op.save 0 ['a']]).Save 1 ['b']).2.urls.length =
      (runOps NewMemoryStorage [Op.save 0 ['a']]).urls.length + 1 ∧
    (((runOps NewMemoryStorage [Op.save 0 ['a']]).Save 1 ['b']).2.Save 2 ['b']).2.urls.length =
      (runOps NewMemoryStorage [Op.save 0 ['a']]).urls.length + 1 :=
  save_idempotent [Op.save 0 ['a']] (runOps NewMemoryStorage [Op.save 0 ['a']]) rfl
    (by decide) 1 2 ['a'] ['b'] ⟨1, ['a'], EncodeBase62 1, 0, 0⟩ rfl rfl

/-- Witness for C6 after one save: incrementing code `"1"` three times leaves
count 3; code `"9"` is absent. -/
theorem increment_frame_witness :
    ((runOps NewMemoryStorage [Op.save 0 ['a']]).IncrementAccessCount ['1']).1 = none ∧
    mapGet ((runOps NewMemoryStorage [Op.save 0 ['a']]).IncrementAccessCount ['1']).2.urls
        ['1'] = some ⟨1, ['a'], ['1'], 0, 1⟩ ∧
    (∀ c2, c2 ≠ ['1'] →
      mapGet ((runOps NewMemoryStorage [Op.save 0 ['a']]).IncrementAccessCount ['1']).2.urls
          c2 =
        mapGet (runOps NewMemoryStorage [Op.save 0 ['a']]).urls c2) ∧
    (∀ i, i ≠ 1 →
      mapGet
          ((runOps NewMemoryStorage [Op.save 0 ['a']]).IncrementAccessCount ['1']).2.urlsByID
          i =
        mapGet (runOps NewMemoryStorage [Op.save 0 ['a']]).urlsByID i) ∧
    mapGet ((runOps NewMemoryStorage [Op.save 0 ['a']]).IncrementAccessCount ['1']).2.urlsByID
        1 = some ⟨1, ['a'], ['1'], 0, 1⟩ ∧
    (∀ o, o ≠ ['a'] →
      mapGet
          ((runOps NewMemoryStorage
            [Op.save 0 ['a']]).IncrementAccessCount ['1']).2.urlsByOrig o =
        mapGet (runOps NewMemoryStorage [Op.save 0 ['a']]).urlsByOrig o) ∧
    ((runOps NewMemoryStorage [Op.save 0 ['a']]).IncrementAccessCount ['1']).2.nextID =
      (runOps NewMemoryStorage [Op.save 0 ['a']]).nextID ∧
    ((runOps NewMemoryStorage [Op.save 0 ['a']]).IncrementAccessCount ['1']).2.urls.length =
      (runOps NewMemoryStorage [Op.save 0 ['a']]).urls.length ∧
    (runOps NewMemoryStorage [Op.save 0 ['a']]).IncrementAccessCount ['9'] =
      (some StorageErr.ErrURLNotFound, runOps NewMemoryStorage [Op.save 0 ['a']]) ∧
    mapGet (iterIncrement (runOps NewMemoryStorage [Op.save 0 ['a']]) ['1'] 3).urls ['1'] =
      some ⟨1, ['a'], ['1'], 0, 3⟩ :=
  increment_frame [Op.save 0 ['a']] (runOps NewMemoryStorage [Op.save 0 ['a']]) rfl
    (by decide) ['1'] ['9'] ⟨1, ['a'], ['1'], 0, 0⟩ 3
    (by rw [run_save_a]; rfl) (by rw [run_save_a]; rfl) (by decide)

/-- Witness for C7: the malformed code `"!"`, the well-formed but absent code
`"z"`, and the absent id 99999 on a fresh store. -/
theorem lookup_errors_typed_witness :
    (URLService.GetOriginalURL NewMemoryStorage ['!']).1 =
      Except.error ServiceError.ErrInvalidShortCode ∧
    URLService.GetURLInfo ⟨['h']⟩ NewMemoryStorage ['!'] =
      Except.error ServiceError.ErrInvalidShortCode ∧
    (URLService.GetOriginalURL NewMemoryStorage ['z']).1 =
      Except.error ServiceError.ErrURLNotFound ∧
    URLService.GetURLInfo ⟨['h']⟩ NewMemoryStorage ['z'] =
      Except.error ServiceError.ErrURLNotFound ∧
    NewMemoryStorage.GetByID 99999 = Except.error StorageErr.ErrURLNotFound ∧
    ServiceError.ErrInvalidShortCode ≠ ServiceError.ErrURLNotFound :=
  lookup_errors_typed ⟨['h']⟩ NewMemoryStorage ['!'] ['z'] 99999
    (by decide) (by decide) rfl rfl

end GinShortURL
